import Mathlib

/-!
Verification of the fujisan leak detector's search-reconciliation core.

The hash-threshold rule (`is_near_exact`, `HASH_THRESHOLDS`) is embedded from
the Python snippet documented in the repository; the frontend judgment
grouping, per-file summary reduce and diff-alert condition are embedded from
the TypeScript sources.  The backend merger, classifier, orchestrator and
history diff engine are not present in the repository tree, so they are
modelled from the specification (each such definition is marked
`Modelled from the spec:` in its doc comment).
-/

namespace Fujisan

/-! ## Hash Engine (from the `is_near_exact` snippet and `HASH_THRESHOLDS`) -/

/-- Hamming distance between two equal-width bit strings: the number of
positions where the bits differ. -/
def hammingDistance (a b : List Bool) : Nat :=
  (List.zipWith (fun x y => x != y) a b).count true

/-- Maximum of the three per-kind hash distances. -/
def maxDistance3 (pd dd ad : Nat) : Nat :=
  max pd (max dd ad)

/-- Embedded from the documented Python snippet:
`is_near_exact = (phash_dist <= 2 and dhash_dist <= 3 and ahash_dist <= 3 and max_distance <= 3)`
with the thresholds of `HASH_THRESHOLDS` (phash_max 2, dhash_max 3,
ahash_max 3, overall_max 3). -/
def isNearExact (pd dd ad : Nat) : Bool :=
  decide (pd ≤ 2) && decide (dd ≤ 3) && decide (ad ≤ 3) &&
    decide (maxDistance3 pd dd ad ≤ 3)

/-- Perceptual fingerprint of one image: a content hash plus the three
perceptual hash bit strings. -/
structure ImageFingerprint where
  contentHash : String
  pHash : List Bool
  dHash : List Bool
  aHash : List Bool
deriving DecidableEq, Repr

/-- Near-duplicate test between two fingerprints, applying `isNearExact`
to the three Hamming distances. -/
def isNearDuplicate (fpA fpB : ImageFingerprint) : Bool :=
  isNearExact (hammingDistance fpA.pHash fpB.pHash)
    (hammingDistance fpA.dHash fpB.dHash)
    (hammingDistance fpA.aHash fpB.aHash)

/-! ## Frontend result model (from the TypeScript `AnalysisResult` type) -/

/-- The four judgment symbols the frontend receives: ○ (safe), × (dangerous),
！ (warning), ？ (unknown). -/
inductive JudgmentSymbol where
  | circle
  | cross
  | exclaim
  | question
deriving DecidableEq, Repr

/-- One analysis result row as typed in the frontend. -/
structure AnalysisRow where
  url : String
  judgment : JudgmentSymbol
  reason : String
deriving DecidableEq, Repr

/-! ## Batch overview summary reduce (frontend) -/

/-- Accumulator of the per-file summary reduce. -/
structure SummaryAcc where
  safe : Nat
  dangerous : Nat
  warning : Nat
  unknown : Nat
deriving DecidableEq, Repr

/-- One step of the frontend reduce: ○ increments safe, × dangerous,
！ warning, anything else unknown. -/
def summaryStep (acc : SummaryAcc) (r : AnalysisRow) : SummaryAcc :=
  if r.judgment = JudgmentSymbol.circle then { acc with safe := acc.safe + 1 }
  else if r.judgment = JudgmentSymbol.cross then { acc with dangerous := acc.dangerous + 1 }
  else if r.judgment = JudgmentSymbol.exclaim then { acc with warning := acc.warning + 1 }
  else { acc with unknown := acc.unknown + 1 }

/-- The per-file summary of the batch overview, a fold starting from all
four counters at zero. -/
def batchSummary (rs : List AnalysisRow) : SummaryAcc :=
  rs.foldl summaryStep ⟨0, 0, 0, 0⟩

/-- Sum of the four counters. -/
def summaryTotal (a : SummaryAcc) : Nat :=
  a.safe + a.dangerous + a.warning + a.unknown

/-! ## Grouped three-column results view (frontend `groupedResults`) -/

/-- Column keyed '○': results whose judgment is ○. -/
def groupCircle (rs : List AnalysisRow) : List AnalysisRow :=
  rs.filter (fun r => decide (r.judgment = JudgmentSymbol.circle))

/-- Column keyed '？': results whose judgment is ？ or ！. -/
def groupQuestion (rs : List AnalysisRow) : List AnalysisRow :=
  rs.filter (fun r =>
    decide (r.judgment = JudgmentSymbol.question ∨ r.judgment = JudgmentSymbol.exclaim))

/-- Column keyed '×': results whose judgment is ×. -/
def groupCross (rs : List AnalysisRow) : List AnalysisRow :=
  rs.filter (fun r => decide (r.judgment = JudgmentSymbol.cross))

/-! ## Diff alert condition (frontend) -/

/-- The `diff` payload of the diff endpoint response, as typed in the
frontend. -/
structure DiffPayload where
  has_changes : Bool
  total_new : Nat
  total_disappeared : Nat
  total_changed : Nat
deriving DecidableEq, Repr

/-- The diff endpoint response, as typed in the frontend
(`DiffResponse`). -/
structure DiffResponse where
  success : Bool
  has_previous : Bool
  diff : Option DiffPayload
deriving DecidableEq, Repr

/-- The render condition of the new-leak alert:
`diffData && diffData.has_previous && diffData.diff && diffData.diff.has_changes`. -/
def showDiffAlert (d : Option DiffResponse) : Bool :=
  match d with
  | none => false
  | some dd =>
    dd.has_previous &&
      (match dd.diff with
       | some df => df.has_changes
       | none => false)

/-! ### Helper lemmas -/

lemma summaryTotal_step (acc : SummaryAcc) (r : AnalysisRow) :
    summaryTotal (summaryStep acc r) = summaryTotal acc + 1 := by
  unfold summaryStep summaryTotal
  split
  · simp; omega
  · split
    · simp; omega
    · split
      · simp; omega
      · simp; omega

lemma summaryTotal_foldl (rs : List AnalysisRow) (acc : SummaryAcc) :
    summaryTotal (rs.foldl summaryStep acc) = summaryTotal acc + rs.length := by
  induction rs generalizing acc with
  | nil => simp
  | cons r t ih =>
    simp only [List.foldl_cons, ih, summaryTotal_step, List.length_cons]
    omega

lemma group_lengths (rs : List AnalysisRow) :
    (groupCircle rs).length + (groupQuestion rs).length + (groupCross rs).length
      = rs.length := by
  induction rs with
  | nil => simp [groupCircle, groupQuestion, groupCross]
  | cons r t ih =>
    cases h : r.judgment <;>
      simp [groupCircle, groupQuestion, groupCross, List.filter_cons, h] at ih ⊢ <;>
      omega

end Fujisan

namespace Fujisan

/-! ## Spec-modelled core (merger, classifier, orchestrator, diff engine) -/

/-- Judgment categories of the classifier. -/
inductive Judgment where
  | safe
  | dangerous
  | warning
  | unknown
deriving DecidableEq, Repr

/-- Modelled from the spec: RawCandidate as produced by one Provider Client
(url, title, provider name, provider confidence; the opaque metadata map and
optional thumbnail reference are omitted as no claim mentions them). -/
structure RawCandidate where
  url : String
  title : String
  providerName : String
  providerConfidence : ℚ
deriving DecidableEq, Repr

/-- Modelled from the spec: MergedResult emitted by the Result Merger
(normalized url, domain, title, combined confidence, contributing provider
set, cross-validation flag; the optional hashDistances record is omitted as
no claim about merge mentions it). -/
@[ext]
structure MergedResult where
  url : String
  domain : String
  title : String
  combinedConfidence : ℚ
  contributingProviders : List String
  crossValidated : Bool
deriving DecidableEq, Repr

/-- Modelled from the spec: ClassifiedResult, a MergedResult plus judgment
and reason. -/
structure ClassifiedResult where
  result : MergedResult
  judgment : Judgment
  reason : String
deriving DecidableEq, Repr

/-- Modelled from the spec: AnalysisSnapshot, the classified result sequence
of one analysis run for one image. -/
structure AnalysisSnapshot where
  imageContentHash : String
  timestamp : Nat
  results : List ClassifiedResult
deriving DecidableEq, Repr

/-- Modelled from the spec: DiffResult of the History Diff Engine, with the
baselineExists flag indicating whether a prior snapshot existed. -/
structure DiffResult where
  newResults : List ClassifiedResult
  disappearedResults : List ClassifiedResult
  changedResults : List (ClassifiedResult × ClassifiedResult)
  hasChanges : Bool
  baselineExists : Bool
deriving DecidableEq, Repr

/-- The urls of a snapshot's results (the merger's normalized-url keys). -/
def snapshotUrls (s : AnalysisSnapshot) : List String :=
  s.results.map (fun c => c.result.url)

/-- Modelled from the spec: the History Diff Engine is absent from the
repository tree.  diff of a current snapshot against an optional previous
one: with no baseline it reports no changes and empty sets; otherwise new,
disappeared and judgment-changed results keyed strictly by normalized url. -/
def diff (current : AnalysisSnapshot) (previous : Option AnalysisSnapshot) : DiffResult :=
  match previous with
  | none => ⟨[], [], [], false, false⟩
  | some prev =>
    let newR := current.results.filter (fun c => decide (c.result.url ∉ snapshotUrls prev))
    let disR := prev.results.filter (fun c => decide (c.result.url ∉ snapshotUrls current))
    let chR := prev.results.filterMap (fun p =>
      match current.results.find? (fun c => c.result.url == p.result.url) with
      | some c => if p.judgment ≠ c.judgment then some (p, c) else none
      | none => none)
    ⟨newR, disR, chR, decide (newR ≠ [] ∨ disR ≠ [] ∨ chR ≠ []), true⟩

/-- Provider-level error taxonomy relevant to the orchestrator. -/
inductive ProviderError where
  | authenticationError
  | rateLimited
  | networkTimeout
deriving DecidableEq, Repr

/-- Modelled from the spec: one enabled provider attempt inside the
orchestrator — its name, its availability (circuit not open, credentials
configured) and the outcome its client would deliver. -/
structure ProviderRun where
  name : String
  available : Bool
  outcome : Except ProviderError (List RawCandidate)

/-- A provider attempt succeeded: it was available and its outcome was ok. -/
def providerSucceeded (p : ProviderRun) : Bool :=
  p.available &&
    (match p.outcome with
     | Except.ok _ => true
     | Except.error _ => false)

/-- Candidates a provider contributes: its ok-outcome list when available,
nothing when unavailable or failed. -/
def providerCandidates (p : ProviderRun) : List RawCandidate :=
  if p.available then
    match p.outcome with
    | Except.ok l => l
    | Except.error _ => []
  else []

/-- Orchestrator statistics: attempted count, names of failed or unavailable
providers, and the TotalFailure indicator. -/
structure SearchStats where
  attempted : Nat
  failedProviders : List String
  totalFailure : Bool

/-- Modelled from the spec: the Search Orchestrator is absent from the
repository tree.  searchAll joins the candidates of every available
provider; provider errors are caught and recorded in stats rather than
raised, and the TotalFailure indicator is set when no provider attempt
succeeded.  The function is total: it never throws to the caller. -/
def searchAll (ps : List ProviderRun) : List RawCandidate × SearchStats :=
  ⟨ps.flatMap providerCandidates,
   ⟨(ps.filter (fun p => p.available)).length,
    (ps.filter (fun p => !providerSucceeded p)).map (fun p => p.name),
    ps.all (fun p => !providerSucceeded p)⟩⟩

/-- Modelled from the spec: the SerpAPI-style Provider Client is absent from
the repository tree.  Per-thumbnail confidence: a thumbnail is accepted only
when `isNearExact` holds for its three hash distances (thresholds of
`HASH_THRESHOLDS`), and the accepted confidence is tiered from the maximum
distance — highest (≤ 1) → 0.9, high (≤ 3) → 0.7. -/
def thumbnailConfidence (pd dd ad : Nat) : Option ℚ :=
  if isNearExact pd dd ad then
    if maxDistance3 pd dd ad ≤ 1 then some (9/10) else some (7/10)
  else none

/-! ## Result Merger (modelled from the spec) -/

/-- Contributors to one dedup key: the candidates whose normalized url is
that key. -/
def contributorsOf (norm : String → String) (cs : List RawCandidate) (key : String) :
    List RawCandidate :=
  cs.filter (fun c => decide (norm c.url = key))

/-- Binary maximum on ℚ, written with an explicit conditional so that it
evaluates on concrete inputs. -/
def qmax (a b : ℚ) : ℚ := if a ≤ b then b else a

/-- Capping at 1, written with an explicit conditional so that it evaluates
on concrete inputs. -/
def cap1 (q : ℚ) : ℚ := if 1 ≤ q then 1 else q

/-- Maximum individual provider confidence among a contributor list
(provider confidences live in [0, 1], so 0 is a neutral fold base). -/
def maxConfOf (l : List RawCandidate) : ℚ :=
  (l.map (fun c => c.providerConfidence)).foldr qmax 0

/-- Richest available title among contributors: the longest one, the
earliest on ties. -/
def bestTitle (l : List RawCandidate) : String :=
  (l.map (fun c => c.title)).foldr (fun t best => if best.length < t.length then t else best) ""

/-- Modelled from the spec: the Result Merger is absent from the repository
tree.  The merged result of one dedup key: contributing providers are the
distinct provider names of the contributors, the combined confidence is the
maximum individual confidence, raised by the 0.1 cross-validation bonus
capped at 1 when more than one provider contributed, which also sets
crossValidated. -/
def mkMerged (norm domOf : String → String) (cs : List RawCandidate) (key : String) :
    MergedResult :=
  ⟨key, domOf key, bestTitle (contributorsOf norm cs key),
   if 1 < ((contributorsOf norm cs key).map (fun c => c.providerName)).dedup.length then
     cap1 (maxConfOf (contributorsOf norm cs key) + 1/10)
   else maxConfOf (contributorsOf norm cs key),
   ((contributorsOf norm cs key).map (fun c => c.providerName)).dedup,
   decide (1 < ((contributorsOf norm cs key).map (fun c => c.providerName)).dedup.length)⟩

/-- The dedup keys of a candidate list: its distinct normalized urls. -/
def mergeKeys (norm : String → String) (cs : List RawCandidate) : List String :=
  (cs.map (fun c => norm c.url)).dedup

/-- Output ordering of the merger: descending combined confidence, ties
broken by ascending normalized url. -/
def resultBefore (a b : MergedResult) : Bool :=
  decide (b.combinedConfidence < a.combinedConfidence) ||
    (decide (a.combinedConfidence = b.combinedConfidence) && decide (a.url ≤ b.url))

/-- Insertion into a list sorted by `resultBefore` (stable). -/
def insertResult (a : MergedResult) : List MergedResult → List MergedResult
  | [] => [a]
  | b :: t => if resultBefore a b then a :: b :: t else b :: insertResult a t

/-- Stable insertion sort by `resultBefore`. -/
def sortResults : List MergedResult → List MergedResult
  | [] => []
  | a :: t => insertResult a (sortResults t)

/-- Modelled from the spec: the Result Merger is absent from the repository
tree.  merge groups candidates by normalized url, builds one MergedResult
per key and sorts by descending combined confidence with ties broken by
ascending url.  It is a pure function of its input (the url normalization
and domain extraction are passed in as parameters). -/
def merge (norm domOf : String → String) (cs : List RawCandidate) : List MergedResult :=
  sortResults ((mergeKeys norm cs).map (mkMerged norm domOf cs))

/-- The RawCandidate-shaped equivalent of one merged result: one candidate
per contributing provider, carrying the merged url, title and combined
confidence. -/
def toRawEquivalent (r : MergedResult) : List RawCandidate :=
  r.contributingProviders.map (fun p => ⟨r.url, r.title, p, r.combinedConfidence⟩)

/-- The RawCandidate-shaped equivalent of a whole merge output. -/
def mergeOutputAsInput (rs : List MergedResult) : List RawCandidate :=
  rs.flatMap toRawEquivalent

/-- Modelled from the spec: the Judgment Classifier is absent from the
repository tree.  classifyOne evaluates the five-rule table top-down, first
match wins: allow-listed domain → safe; cross-validated with combined
confidence at least 0.8 → dangerous; deny-listed domain → dangerous;
combined confidence in [0.4, 0.8) → warning; otherwise unknown. -/
def classifyOne (allow deny : List String) (m : MergedResult) : Judgment × String :=
  if m.domain ∈ allow then
    (Judgment.safe, "verified publisher domain")
  else if m.crossValidated = true ∧ (8/10 : ℚ) ≤ m.combinedConfidence then
    (Judgment.dangerous, "confirmed redistribution across multiple engines")
  else if m.domain ∈ deny then
    (Judgment.dangerous, "listed distribution domain")
  else if (4/10 : ℚ) ≤ m.combinedConfidence ∧ m.combinedConfidence < (8/10 : ℚ) then
    (Judgment.warning, "partial match, manual review recommended")
  else
    (Judgment.unknown, "insufficient signal for classification")

/-- The classifier applied to a whole merged result list. -/
def classify (allow deny : List String) (ms : List MergedResult) : List ClassifiedResult :=
  ms.map (fun m =>
    ⟨m, (classifyOne allow deny m).1, (classifyOne allow deny m).2⟩)

/-- One rule of the classifier's rule table: a predicate plus the judgment
and reason it assigns. -/
structure ClassifierRule where
  pred : MergedResult → Bool
  judgment : Judgment
  reason : String

/-- The five-rule table of the spec, written as data so that top-down
first-match evaluation can be stated independently of classifyOne. -/
def ruleTable (allow deny : List String) : List ClassifierRule :=
  [⟨fun m => decide (m.domain ∈ allow),
    Judgment.safe, "verified publisher domain"⟩,
   ⟨fun m => m.crossValidated && decide ((8/10 : ℚ) ≤ m.combinedConfidence),
    Judgment.dangerous, "confirmed redistribution across multiple engines"⟩,
   ⟨fun m => decide (m.domain ∈ deny),
    Judgment.dangerous, "listed distribution domain"⟩,
   ⟨fun m => decide ((4/10 : ℚ) ≤ m.combinedConfidence) &&
       decide (m.combinedConfidence < (8/10 : ℚ)),
    Judgment.warning, "partial match, manual review recommended"⟩,
   ⟨fun _ => true,
    Judgment.unknown, "insufficient signal for classification"⟩]

/-- The judgment and reason of the first rule of a table that matches. -/
def firstMatch (rules : List ClassifierRule) (m : MergedResult) :
    Option (Judgment × String) :=
  (rules.find? (fun rule => rule.pred m)).map (fun rule => (rule.judgment, rule.reason))

/-- C1: isNearDuplicate holds exactly when the pHash distance is at most 2,
the dHash distance at most 3, the aHash distance at most 3 and the maximum
of the three distances at most 3. -/
theorem isNearDuplicate_iff_thresholds (fpA fpB : ImageFingerprint) :
    isNearDuplicate fpA fpB = true ↔
      hammingDistance fpA.pHash fpB.pHash ≤ 2 ∧
      hammingDistance fpA.dHash fpB.dHash ≤ 3 ∧
      hammingDistance fpA.aHash fpB.aHash ≤ 3 ∧
      maxDistance3 (hammingDistance fpA.pHash fpB.pHash)
        (hammingDistance fpA.dHash fpB.dHash)
        (hammingDistance fpA.aHash fpB.aHash) ≤ 3 := by
  simp [isNearDuplicate, isNearExact, Bool.and_eq_true, decide_eq_true_eq, and_assoc]

/-- C8: the batch-overview summary reduce assigns every result to exactly one
of the four counters, so the four counts always sum to the number of
results. -/
theorem batchSummary_counts_sum (rs : List AnalysisRow) :
    (batchSummary rs).safe + (batchSummary rs).dangerous +
      (batchSummary rs).warning + (batchSummary rs).unknown = rs.length := by
  have h := summaryTotal_foldl rs ⟨0, 0, 0, 0⟩
  simpa [batchSummary, summaryTotal] using h

/-- C9: the three judgment columns are pairwise disjoint and jointly contain
every result; a result judged ！ appears in the ？ column and in no other. -/
theorem groupedResults_partition (rs : List AnalysisRow) :
    ((groupCircle rs).length + (groupQuestion rs).length + (groupCross rs).length
        = rs.length) ∧
    (∀ r ∈ rs, r ∈ groupCircle rs ∨ r ∈ groupQuestion rs ∨ r ∈ groupCross rs) ∧
    (∀ r : AnalysisRow,
      ¬(r ∈ groupCircle rs ∧ r ∈ groupQuestion rs) ∧
      ¬(r ∈ groupCircle rs ∧ r ∈ groupCross rs) ∧
      ¬(r ∈ groupQuestion rs ∧ r ∈ groupCross rs)) ∧
    (∀ r ∈ rs, r.judgment = JudgmentSymbol.exclaim → r ∈ groupQuestion rs) := by
  refine ⟨group_lengths rs, ?_, ?_, ?_⟩
  · intro r hr
    cases h : r.judgment
    · exact Or.inl (List.mem_filter.mpr ⟨hr, by simp [h]⟩)
    · exact Or.inr (Or.inr (List.mem_filter.mpr ⟨hr, by simp [h]⟩))
    · exact Or.inr (Or.inl (List.mem_filter.mpr ⟨hr, by simp [h]⟩))
    · exact Or.inr (Or.inl (List.mem_filter.mpr ⟨hr, by simp [h]⟩))
  · intro r
    refine ⟨?_, ?_, ?_⟩ <;> rintro ⟨h1, h2⟩ <;>
      simp only [groupCircle, groupQuestion, groupCross, List.mem_filter,
        decide_eq_true_eq] at h1 h2 <;>
      rcases h1 with ⟨-, e1⟩ <;> rcases h2 with ⟨-, e2⟩
    · rcases e2 with e2 | e2 <;> rw [e1] at e2 <;> cases e2
    · rw [e1] at e2; cases e2
    · rcases e1 with e1 | e1 <;> rw [e1] at e2 <;> cases e2
  · intro r hr h
    exact List.mem_filter.mpr ⟨hr, by simp [h]⟩

/-- C9 witness: on a concrete two-row list, the partition facts hold and the
！ row is placed in the ？ column. -/
theorem groupedResults_partition_witness :
    (⟨"u", JudgmentSymbol.exclaim, "r"⟩ : AnalysisRow) ∈
      groupQuestion [⟨"u", JudgmentSymbol.exclaim, "r"⟩, ⟨"v", JudgmentSymbol.circle, "s"⟩] :=
  (groupedResults_partition
      [⟨"u", JudgmentSymbol.exclaim, "r"⟩, ⟨"v", JudgmentSymbol.circle, "s"⟩]).2.2.2
    ⟨"u", JudgmentSymbol.exclaim, "r"⟩ (by simp) rfl

/-- C10: the new-leak alert is rendered exactly when the diff response is
present with has_previous true and a diff payload whose has_changes is true;
in particular it is never shown for a first analysis or an unchanged
re-analysis. -/
theorem showDiffAlert_iff (d : Option DiffResponse) :
    showDiffAlert d = true ↔
      ∃ dd df, d = some dd ∧ dd.has_previous = true ∧
        dd.diff = some df ∧ df.has_changes = true := by
  cases d with
  | none => simp [showDiffAlert]
  | some dd =>
    cases hdf : dd.diff with
    | none =>
      simp only [showDiffAlert, hdf, Bool.and_false]
      constructor
      · intro h; cases h
      · rintro ⟨dd', df, heq, -, hdiff, -⟩
        cases heq
        rw [hdf] at hdiff
        cases hdiff
    | some df =>
      simp only [showDiffAlert, hdf, Bool.and_eq_true]
      constructor
      · rintro ⟨h1, h2⟩
        exact ⟨dd, df, rfl, h1, hdf, h2⟩
      · rintro ⟨dd', df', heq, h1, hdiff, h2⟩
        cases heq
        rw [hdf] at hdiff
        cases hdiff
        exact ⟨h1, h2⟩

/-- A failed or unavailable provider contributes no candidates. -/
lemma providerCandidates_eq_nil {p : ProviderRun}
    (h : providerSucceeded p = false) : providerCandidates p = [] := by
  unfold providerSucceeded at h
  unfold providerCandidates
  cases ha : p.available with
  | false => simp [ha]
  | true =>
    cases ho : p.outcome with
    | ok l => rw [ha, ho] at h; simp at h
    | error e => simp [ha, ho]

/-- C4: diffing any current snapshot against an absent baseline yields
hasChanges false, empty new, disappeared and changed sets, and the
no-baseline flag, regardless of the snapshot's contents. -/
theorem diff_absent_baseline (S : AnalysisSnapshot) :
    (diff S none).hasChanges = false ∧
    (diff S none).newResults = [] ∧
    (diff S none).disappearedResults = [] ∧
    (diff S none).changedResults = [] ∧
    (diff S none).baselineExists = false := by
  simp [diff]

/-- C5: searchAll is total (it returns a pair, never an exception), and when
every enabled provider fails or is unavailable it returns an empty candidate
list together with the TotalFailure indicator in its stats. -/
theorem searchAll_total_failure (ps : List ProviderRun)
    (h : ∀ p ∈ ps, providerSucceeded p = false) :
    (searchAll ps).1 = [] ∧ (searchAll ps).2.totalFailure = true := by
  constructor
  · simp only [searchAll]
    rw [List.flatMap_eq_nil_iff]
    intro p hp
    exact providerCandidates_eq_nil (h p hp)
  · simp only [searchAll]
    rw [List.all_eq_true]
    intro p hp
    simp [h p hp]

/-- C5 witness: a single unavailable provider yields the empty list and the
TotalFailure indicator. -/
theorem searchAll_total_failure_witness :
    (searchAll [⟨"Vision", false, Except.error ProviderError.networkTimeout⟩]).1 = [] ∧
    (searchAll [⟨"Vision", false, Except.error ProviderError.networkTimeout⟩]).2.totalFailure
      = true :=
  searchAll_total_failure
    [⟨"Vision", false, Except.error ProviderError.networkTimeout⟩]
    (by intro p hp; simp at hp; rw [hp]; rfl)

/-- C6: an accepted thumbnail's confidence is exactly 0.9 when the maximum
hash distance is at most 1 and exactly 0.7 when it is above 1 but at most 3;
a thumbnail whose maximum hash distance exceeds 3 yields no candidate. -/
theorem thumbnailConfidence_tiers (pd dd ad : Nat) :
    (∀ c : ℚ, thumbnailConfidence pd dd ad = some c →
      (maxDistance3 pd dd ad ≤ 1 ∧ c = 9/10) ∨
      (1 < maxDistance3 pd dd ad ∧ maxDistance3 pd dd ad ≤ 3 ∧ c = 7/10)) ∧
    (3 < maxDistance3 pd dd ad → thumbnailConfidence pd dd ad = none) := by
  constructor
  · intro c hc
    unfold thumbnailConfidence at hc
    by_cases hne : isNearExact pd dd ad = true
    · have hmax : maxDistance3 pd dd ad ≤ 3 := by
        unfold isNearExact at hne
        simp only [Bool.and_eq_true, decide_eq_true_eq] at hne
        exact hne.2
      rw [hne] at hc
      simp only [if_true] at hc
      by_cases h1 : maxDistance3 pd dd ad ≤ 1
      · rw [if_pos h1] at hc
        exact Or.inl ⟨h1, (Option.some_injective _ hc).symm⟩
      · rw [if_neg h1] at hc
        exact Or.inr ⟨by omega, hmax, (Option.some_injective _ hc).symm⟩
    · simp only [Bool.not_eq_true] at hne
      rw [hne] at hc
      simp at hc
  · intro h3
    unfold thumbnailConfidence
    have : isNearExact pd dd ad = false := by
      unfold isNearExact
      simp only [Bool.and_eq_false_iff, decide_eq_false_iff_not]
      right
      omega
    rw [this]
    simp

/-- C6 witness: with distances (1, 1, 0) the maximum distance is 1 and the
assigned confidence is exactly 0.9. -/
theorem thumbnailConfidence_tiers_witness :
    (maxDistance3 1 1 0 ≤ 1 ∧ (9/10 : ℚ) = 9/10) ∨
    (1 < maxDistance3 1 1 0 ∧ maxDistance3 1 1 0 ≤ 3 ∧ (9/10 : ℚ) = 7/10) :=
  (thumbnailConfidence_tiers 1 1 0).1 (9/10) rfl

/-- classifyOne agrees with top-down first-match evaluation of the rule
table. -/
lemma firstMatch_ruleTable (allow deny : List String) (m : MergedResult) :
    firstMatch (ruleTable allow deny) m = some (classifyOne allow deny m) := by
  by_cases h1 : m.domain ∈ allow <;>
    by_cases h2 : (8/10 : ℚ) ≤ m.combinedConfidence <;>
    cases hcv : m.crossValidated <;>
    by_cases h3 : m.domain ∈ deny <;>
    by_cases h4 : (4/10 : ℚ) ≤ m.combinedConfidence <;>
    by_cases h5 : m.combinedConfidence < (8/10 : ℚ) <;>
    simp [firstMatch, ruleTable, classifyOne, List.find?, h1, h2, hcv, h3, h4, h5]

/-- C3: classify is total and deterministic — it maps every merged result to
exactly one classified result (preserving the input sequence), the judgment
and reason of each are those of the first matching rule of the five-rule
table evaluated top-down, and re-running yields identical judgments. -/
theorem classify_total_first_match (allow deny : List String) (ms : List MergedResult) :
    (classify allow deny ms).map (fun c => c.result) = ms ∧
    (∀ c ∈ classify allow deny ms,
      firstMatch (ruleTable allow deny) c.result = some (c.judgment, c.reason)) ∧
    classify allow deny ms = classify allow deny ms := by
  refine ⟨?_, ?_, rfl⟩
  · simp [classify, List.map_map, Function.comp_def]
  · intro c hc
    simp only [classify, List.mem_map] at hc
    obtain ⟨m, _, rfl⟩ := hc
    simpa using firstMatch_ruleTable allow deny m

/-- C3 witness: on a one-element list with an allow-listed domain the
classified judgment is safe with the verified-publisher reason, matching the
first rule of the table. -/
theorem classify_total_first_match_witness :
    firstMatch (ruleTable ["pub.example"] [])
        (⟨"u", "pub.example", "t", 1/2, ["Alpha"], false⟩ : MergedResult)
      = some (Judgment.safe, "verified publisher domain") :=
  (classify_total_first_match ["pub.example"] []
      [⟨"u", "pub.example", "t", 1/2, ["Alpha"], false⟩]).2.1
    ⟨⟨"u", "pub.example", "t", 1/2, ["Alpha"], false⟩,
      Judgment.safe, "verified publisher domain"⟩
    (by simp [classify, classifyOne])

/-! ### Merger lemmas -/

lemma mem_insertResult {x a : MergedResult} {l : List MergedResult} :
    x ∈ insertResult a l ↔ x = a ∨ x ∈ l := by
  induction l with
  | nil => simp [insertResult]
  | cons b t ih =>
    unfold insertResult
    split
    · simp
    · simp only [List.mem_cons, ih]
      tauto

lemma mem_sortResults {x : MergedResult} {l : List MergedResult} :
    x ∈ sortResults l ↔ x ∈ l := by
  induction l with
  | nil => simp [sortResults]
  | cons a t ih => simp [sortResults, mem_insertResult, ih]

lemma mkMerged_url (norm domOf : String → String) (cs : List RawCandidate) (key : String) :
    (mkMerged norm domOf cs key).url = key := rfl

lemma qmax_eq_max (a b : ℚ) : qmax a b = max a b := by
  rw [max_def]; rfl

lemma cap1_eq_min (q : ℚ) : cap1 q = min 1 q := by
  rw [min_def]; rfl

/-- C2: in every merged result, the combined confidence is the maximum
contributor confidence when exactly one provider contributed, and is
min(1, that maximum + 0.1) with crossValidated true when more than one
provider contributed. -/
theorem merge_combinedConfidence (norm domOf : String → String)
    (cs : List RawCandidate) (r : MergedResult) (hr : r ∈ merge norm domOf cs) :
    (r.contributingProviders.length = 1 →
      r.combinedConfidence = maxConfOf (contributorsOf norm cs r.url)) ∧
    (1 < r.contributingProviders.length →
      r.combinedConfidence = min 1 (maxConfOf (contributorsOf norm cs r.url) + 1/10) ∧
      r.crossValidated = true) := by
  have h1 : r ∈ (mergeKeys norm cs).map (mkMerged norm domOf cs) :=
    mem_sortResults.mp hr
  rw [List.mem_map] at h1
  obtain ⟨key, -, rfl⟩ := h1
  constructor
  · intro hlen
    simp only [mkMerged] at hlen ⊢
    rw [if_neg]
    omega
  · intro hlen
    simp only [mkMerged] at hlen ⊢
    rw [if_pos hlen]
    exact ⟨cap1_eq_min _, by simpa using hlen⟩

/-- Concrete candidate list for the merger witness: two providers report the
same url with confidences 0.9 and 0.5. -/
def crossInput : List RawCandidate :=
  [⟨"x", "t", "Alpha", 9/10⟩, ⟨"x", "t", "Beta", 1/2⟩]

lemma crossInput_merge :
    merge id id crossInput = [⟨"x", "x", "t", 1, ["Alpha", "Beta"], true⟩] := by
  have hd : (["Alpha", "Beta"] : List String).dedup = ["Alpha", "Beta"] := by
    simp [List.dedup_cons_of_not_mem]
  have ht : ("t" : String).length = 1 := rfl
  norm_num [merge, mergeKeys, mkMerged, contributorsOf, maxConfOf, bestTitle, qmax, cap1,
    sortResults, insertResult, crossInput, hd, ht, List.dedup_cons_of_mem,
    List.dedup_cons_of_not_mem]

/-- C2 witness: for the two-provider concrete input, the merged result's
confidence is min(1, 0.9 + 0.1) and it is cross-validated. -/
theorem merge_combinedConfidence_witness :
    (⟨"x", "x", "t", 1, ["Alpha", "Beta"], true⟩ : MergedResult).combinedConfidence
        = min 1 (maxConfOf (contributorsOf id crossInput
            (⟨"x", "x", "t", 1, ["Alpha", "Beta"], true⟩ : MergedResult).url) + 1/10) ∧
    (⟨"x", "x", "t", 1, ["Alpha", "Beta"], true⟩ : MergedResult).crossValidated = true :=
  (merge_combinedConfidence id id crossInput
      ⟨"x", "x", "t", 1, ["Alpha", "Beta"], true⟩
      (by rw [crossInput_merge]; exact List.mem_singleton_self _)).2
    (by norm_num)

/-- Concrete candidate list refuting merge idempotence: two providers report
the same url with confidences 0.6 and 0.7, so the first merge yields
combined confidence 0.8 and the second raises it to 0.9. -/
def bonusInput : List RawCandidate :=
  [⟨"x", "t", "Alpha", 6/10⟩, ⟨"x", "t", "Beta", 7/10⟩]

/-- C7 counterexample: re-applying merge to the RawCandidate-shaped
equivalent of its own output does not reproduce the same MergedResult
sequence — the cross-validation bonus is applied a second time. -/
theorem merge_reapply_counterexample :
    merge id id (mergeOutputAsInput (merge id id bonusInput)) ≠ merge id id bonusInput := by
  have hd : (["Alpha", "Beta"] : List String).dedup = ["Alpha", "Beta"] := by
    simp [List.dedup_cons_of_not_mem]
  have ht : ("t" : String).length = 1 := rfl
  norm_num [merge, mergeKeys, mkMerged, contributorsOf, maxConfOf, bestTitle, qmax, cap1,
    sortResults, insertResult, bonusInput, mergeOutputAsInput, toRawEquivalent, hd, ht,
    List.dedup_cons_of_mem, List.dedup_cons_of_not_mem]

/-! ### Ordering lemmas for the merger's sort -/

lemma resultBefore_iff (a b : MergedResult) :
    resultBefore a b = true ↔
      (b.combinedConfidence < a.combinedConfidence ∨
       (a.combinedConfidence = b.combinedConfidence ∧ a.url ≤ b.url)) := by
  unfold resultBefore
  simp [Bool.or_eq_true, Bool.and_eq_true, decide_eq_true_eq]

lemma resultBefore_total (a b : MergedResult) :
    resultBefore a b = true ∨ resultBefore b a = true := by
  rw [resultBefore_iff, resultBefore_iff]
  rcases lt_trichotomy a.combinedConfidence b.combinedConfidence with h | h | h
  · right; exact Or.inl h
  · rcases le_total a.url b.url with hu | hu
    · left; exact Or.inr ⟨h, hu⟩
    · right; exact Or.inr ⟨h.symm, hu⟩
  · left; exact Or.inl h

lemma resultBefore_trans {a b c : MergedResult}
    (hab : resultBefore a b = true) (hbc : resultBefore b c = true) :
    resultBefore a c = true := by
  rw [resultBefore_iff] at hab hbc ⊢
  rcases hab with h1 | ⟨h1, hu1⟩
  · rcases hbc with h2 | ⟨h2, hu2⟩
    · exact Or.inl (h2.trans h1)
    · exact Or.inl (by rw [← h2]; exact h1)
  · rcases hbc with h2 | ⟨h2, hu2⟩
    · exact Or.inl (by rw [h1]; exact h2)
    · exact Or.inr ⟨h1.trans h2, hu1.trans hu2⟩

lemma pairwise_insertResult {a : MergedResult} {l : List MergedResult}
    (h : l.Pairwise (fun x y => resultBefore x y = true)) :
    (insertResult a l).Pairwise (fun x y => resultBefore x y = true) := by
  induction l with
  | nil => exact List.pairwise_singleton _ a
  | cons b t ih =>
    rw [List.pairwise_cons] at h
    unfold insertResult
    by_cases hab : resultBefore a b = true
    · rw [if_pos hab]
      refine List.Pairwise.cons ?_ (List.Pairwise.cons h.1 h.2)
      intro x hx
      rcases List.mem_cons.mp hx with rfl | hx
      · exact hab
      · exact resultBefore_trans hab (h.1 x hx)
    · rw [if_neg hab]
      refine List.Pairwise.cons ?_ (ih h.2)
      intro x hx
      rcases mem_insertResult.mp hx with rfl | hx
      · rcases resultBefore_total b x with hbx | hxb
        · exact hbx
        · exact absurd hxb hab
      · exact h.1 x hx

lemma pairwise_sortResults (l : List MergedResult) :
    (sortResults l).Pairwise (fun x y => resultBefore x y = true) := by
  induction l with
  | nil => exact List.Pairwise.nil
  | cons a t ih => exact pairwise_insertResult ih

lemma sortResults_eq_of_pairwise {l : List MergedResult}
    (h : l.Pairwise (fun x y => resultBefore x y = true)) : sortResults l = l := by
  induction l with
  | nil => rfl
  | cons a t ih =>
    rw [List.pairwise_cons] at h
    show insertResult a (sortResults t) = a :: t
    rw [ih h.2]
    cases t with
    | nil => rfl
    | cons b t' =>
      show (if resultBefore a b then a :: b :: t' else b :: insertResult a t') = a :: b :: t'
      rw [if_pos (h.1 b (List.mem_cons_self b t'))]

lemma perm_insertResult (a : MergedResult) (l : List MergedResult) :
    (insertResult a l).Perm (a :: l) := by
  induction l with
  | nil => exact List.Perm.refl _
  | cons b t ih =>
    unfold insertResult
    split
    · exact List.Perm.refl _
    · exact ((ih.cons b).trans (List.Perm.swap a b t))

lemma perm_sortResults (l : List MergedResult) : (sortResults l).Perm l := by
  induction l with
  | nil => exact List.Perm.refl _
  | cons a t ih => exact (perm_insertResult a (sortResults t)).trans (ih.cons a)

/-! ### Structure of merge output -/

lemma merge_mem_elim {norm domOf : String → String} {cs : List RawCandidate}
    {r : MergedResult} (hr : r ∈ merge norm domOf cs) :
    ∃ key, key ∈ mergeKeys norm cs ∧ r = mkMerged norm domOf cs key := by
  have h1 := mem_sortResults.mp hr
  rw [List.mem_map] at h1
  obtain ⟨key, hk, he⟩ := h1
  exact ⟨key, hk, he.symm⟩

lemma mergeKeys_norm_fixed {norm : String → String} {cs : List RawCandidate}
    {key : String} (hidem : ∀ s, norm (norm s) = norm s)
    (hk : key ∈ mergeKeys norm cs) : norm key = key := by
  unfold mergeKeys at hk
  rw [List.mem_dedup, List.mem_map] at hk
  obtain ⟨c, -, rfl⟩ := hk
  exact hidem c.url

lemma contributorsOf_ne_nil {norm : String → String} {cs : List RawCandidate}
    {key : String} (hk : key ∈ mergeKeys norm cs) :
    contributorsOf norm cs key ≠ [] := by
  unfold mergeKeys at hk
  rw [List.mem_dedup, List.mem_map] at hk
  obtain ⟨c, hc, rfl⟩ := hk
  intro h
  have hmem : c ∈ contributorsOf norm cs (norm c.url) :=
    List.mem_filter.mpr ⟨hc, by simp⟩
  rw [h] at hmem
  cases hmem

lemma merge_map_url (norm domOf : String → String) (cs : List RawCandidate) :
    ((mergeKeys norm cs).map (mkMerged norm domOf cs)).map (fun r => r.url)
      = mergeKeys norm cs := by
  rw [List.map_map]
  have h : ((fun r : MergedResult => r.url) ∘ mkMerged norm domOf cs) = fun k => k := rfl
  rw [h]
  simp

lemma merge_urls_nodup (norm domOf : String → String) (cs : List RawCandidate) :
    ((merge norm domOf cs).map (fun r => r.url)).Nodup := by
  have hperm : ((merge norm domOf cs).map (fun r => r.url)).Perm
      (((mergeKeys norm cs).map (mkMerged norm domOf cs)).map (fun r => r.url)) :=
    (perm_sortResults _).map _
  rw [merge_map_url] at hperm
  exact hperm.nodup_iff.mpr (List.nodup_dedup _)

lemma merge_providers_single {norm domOf : String → String} {cs : List RawCandidate}
    {r : MergedResult} (hr : r ∈ merge norm domOf cs)
    (hcv : r.crossValidated = false) :
    ∃ p, r.contributingProviders = [p] := by
  obtain ⟨key, hk, rfl⟩ := merge_mem_elim hr
  have hne := contributorsOf_ne_nil hk
  simp only [mkMerged, decide_eq_false_iff_not] at hcv
  have h0 : ((contributorsOf norm cs key).map (fun c => c.providerName)).dedup ≠ [] := by
    rw [Ne, List.dedup_eq_nil, List.map_eq_nil_iff]
    exact hne
  have hlen : ((contributorsOf norm cs key).map (fun c => c.providerName)).dedup.length = 1 := by
    have h1 : ((contributorsOf norm cs key).map (fun c => c.providerName)).dedup.length ≠ 0 :=
      fun h => h0 (List.length_eq_zero.mp h)
    omega
  obtain ⟨p, hp⟩ := List.length_eq_one.mp hlen
  exact ⟨p, by simp only [mkMerged]; exact hp⟩

lemma merge_cc_single {norm domOf : String → String} {cs : List RawCandidate}
    {r : MergedResult} (hr : r ∈ merge norm domOf cs)
    (hcv : r.crossValidated = false) :
    r.combinedConfidence = maxConfOf (contributorsOf norm cs r.url) := by
  obtain ⟨key, hk, rfl⟩ := merge_mem_elim hr
  simp only [mkMerged, decide_eq_false_iff_not] at hcv
  simp only [mkMerged]
  rw [if_neg hcv]

lemma maxConfOf_nonneg (l : List RawCandidate) : 0 ≤ maxConfOf l := by
  induction l with
  | nil => exact le_refl 0
  | cons c t ih =>
    show 0 ≤ qmax c.providerConfidence (maxConfOf t)
    unfold qmax
    split
    · exact ih
    · next h => exact le_of_lt (lt_of_le_of_lt ih (not_le.mp h))

lemma qmax_zero_right {a : ℚ} (h : 0 ≤ a) : qmax a 0 = a := by
  unfold qmax
  split
  · next hle => exact (le_antisymm hle h).symm
  · rfl

lemma string_eq_empty_of_length {s : String} (h : s.length = 0) : s = "" := by
  cases s with
  | mk data =>
    cases data with
    | nil => rfl
    | cons c cs => simp [String.length] at h

lemma bestTitle_singleton (c : RawCandidate) : bestTitle [c] = c.title := by
  show (if ("" : String).length < c.title.length then c.title else "") = c.title
  split
  · rfl
  · next h =>
    have h0 : c.title.length = 0 := by
      have he : ("" : String).length = 0 := rfl
      rw [he] at h
      omega
    exact (string_eq_empty_of_length h0).symm

lemma flatMap_eq_map_of_singletons {α β : Type} (f : α → List β) (g : α → β)
    (l : List α) (h : ∀ x ∈ l, f x = [g x]) : l.flatMap f = l.map g := by
  induction l with
  | nil => rfl
  | cons a t ih =>
    rw [List.flatMap_cons, h a (List.mem_cons_self a t), List.map_cons,
      ih (fun x hx => h x (List.mem_cons_of_mem a hx))]
    rfl

lemma filter_url_eq_singleton {l : List MergedResult} {r : MergedResult}
    (hnd : (l.map (fun x => x.url)).Nodup) (hr : r ∈ l) :
    l.filter (fun x => decide (x.url = r.url)) = [r] := by
  induction l with
  | nil => cases hr
  | cons a t ih =>
    rw [List.map_cons, List.nodup_cons] at hnd
    rcases List.mem_cons.mp hr with rfl | hmr
    · rw [List.filter_cons_of_pos (by simp)]
      have hnil : t.filter (fun x => decide (x.url = r.url)) = [] := by
        rw [List.filter_eq_nil_iff]
        intro x hx hx2
        simp only [decide_eq_true_eq] at hx2
        exact hnd.1 (by rw [← hx2]; exact List.mem_map_of_mem _ hx)
      rw [hnil]
    · have hne : ¬(a.url = r.url) := by
        intro h
        exact hnd.1 (by rw [h]; exact List.mem_map_of_mem _ hmr)
      rw [List.filter_cons_of_neg (by simp [hne])]
      exact ih hnd.2 hmr

lemma merge_remerge_eq (norm domOf : String → String) (cs : List RawCandidate)
    (hidem : ∀ s, norm (norm s) = norm s)
    (hcv : ∀ r ∈ merge norm domOf cs, r.crossValidated = false) :
    merge norm domOf (mergeOutputAsInput (merge norm domOf cs)) = merge norm domOf cs := by
  have hnd : ((merge norm domOf cs).map (fun x => x.url)).Nodup :=
    merge_urls_nodup norm domOf cs
  have hfix : ∀ r ∈ merge norm domOf cs, norm r.url = r.url := by
    intro r hr
    obtain ⟨key, hk, rfl⟩ := merge_mem_elim hr
    exact mergeKeys_norm_fixed hidem hk
  have hprov : ∀ r ∈ merge norm domOf cs, ∃ p, r.contributingProviders = [p] :=
    fun r hr => merge_providers_single hr (hcv r hr)
  have hccnn : ∀ r ∈ merge norm domOf cs, 0 ≤ r.combinedConfidence := by
    intro r hr
    rw [merge_cc_single hr (hcv r hr)]
    exact maxConfOf_nonneg _
  have hraws : mergeOutputAsInput (merge norm domOf cs) = (merge norm domOf cs).map
      (fun r => (⟨r.url, r.title, r.contributingProviders.headI,
        r.combinedConfidence⟩ : RawCandidate)) := by
    apply flatMap_eq_map_of_singletons
    intro r hr
    obtain ⟨p, hp⟩ := hprov r hr
    unfold toRawEquivalent
    rw [hp]
    rfl
  have hkeys2 : mergeKeys norm (mergeOutputAsInput (merge norm domOf cs))
      = (merge norm domOf cs).map (fun r => r.url) := by
    rw [hraws]
    unfold mergeKeys
    rw [List.map_map]
    have h1 : (merge norm domOf cs).map
        ((fun c : RawCandidate => norm c.url) ∘
          (fun r : MergedResult => (⟨r.url, r.title, r.contributingProviders.headI,
            r.combinedConfidence⟩ : RawCandidate)))
        = (merge norm domOf cs).map (fun r => r.url) :=
      List.map_congr_left (fun r hr => hfix r hr)
    rw [h1, List.dedup_eq_self.mpr hnd]
  have hcon : ∀ r ∈ merge norm domOf cs,
      contributorsOf norm (mergeOutputAsInput (merge norm domOf cs)) r.url
        = [⟨r.url, r.title, r.contributingProviders.headI, r.combinedConfidence⟩] := by
    intro r hr
    rw [hraws]
    unfold contributorsOf
    rw [List.filter_map]
    have h1 : (merge norm domOf cs).filter
        ((fun c : RawCandidate => decide (norm c.url = r.url)) ∘
          (fun x : MergedResult => (⟨x.url, x.title, x.contributingProviders.headI,
            x.combinedConfidence⟩ : RawCandidate)))
        = (merge norm domOf cs).filter (fun x => decide (x.url = r.url)) :=
      List.filter_congr (fun x hx => by
        show decide (norm x.url = r.url) = decide (x.url = r.url)
        rw [hfix x hx])
    rw [h1, filter_url_eq_singleton hnd hr]
    rfl
  have helem : ∀ r ∈ merge norm domOf cs,
      mkMerged norm domOf (mergeOutputAsInput (merge norm domOf cs)) r.url = r := by
    intro r hr
    obtain ⟨p, hp⟩ := hprov r hr
    have hdom : r.domain = domOf r.url := by
      obtain ⟨key, hk, rfl⟩ := merge_mem_elim hr
      rfl
    have htit : bestTitle [(⟨r.url, r.title, r.contributingProviders.headI,
        r.combinedConfidence⟩ : RawCandidate)] = r.title := bestTitle_singleton _
    apply MergedResult.ext
    · exact mkMerged_url norm domOf _ r.url
    · simp only [mkMerged]
      exact hdom.symm
    · simp only [mkMerged]
      rw [hcon r hr, htit]
    · simp only [mkMerged]
      rw [hcon r hr]
      simp only [List.map_cons, List.map_nil, List.dedup_nil,
        List.dedup_cons_of_not_mem (List.not_mem_nil _), List.length_cons,
        List.length_nil]
      rw [if_neg (by omega)]
      show qmax r.combinedConfidence 0 = r.combinedConfidence
      exact qmax_zero_right (hccnn r hr)
    · simp only [mkMerged]
      rw [hcon r hr]
      simp only [List.map_cons, List.map_nil, List.dedup_nil,
        List.dedup_cons_of_not_mem (List.not_mem_nil _)]
      rw [hp]
      rfl
    · simp only [mkMerged]
      rw [hcon r hr]
      simp only [List.map_cons, List.map_nil, List.dedup_nil,
        List.dedup_cons_of_not_mem (List.not_mem_nil _), List.length_cons,
        List.length_nil]
      rw [hcv r hr]
      simp
  have hpw : (merge norm domOf cs).Pairwise (fun x y => resultBefore x y = true) :=
    pairwise_sortResults ((mergeKeys norm cs).map (mkMerged norm domOf cs))
  calc merge norm domOf (mergeOutputAsInput (merge norm domOf cs))
      = sortResults ((mergeKeys norm (mergeOutputAsInput (merge norm domOf cs))).map
          (mkMerged norm domOf (mergeOutputAsInput (merge norm domOf cs)))) := rfl
    _ = sortResults ((merge norm domOf cs).map
          (fun r => mkMerged norm domOf (mergeOutputAsInput (merge norm domOf cs)) r.url)) := by
        rw [hkeys2, List.map_map]
        rfl
    _ = sortResults ((merge norm domOf cs).map (fun r => r)) := by
        rw [List.map_congr_left helem]
    _ = sortResults (merge norm domOf cs) := by
        have hmap : (merge norm domOf cs).map (fun r => r) = merge norm domOf cs := by
          simp
        rw [hmap]
    _ = merge norm domOf cs := sortResults_eq_of_pairwise hpw

/-- C7 (amended): merge is pure — identical input yields identical output —
and re-applying merge to the RawCandidate-shaped equivalent of its own
output reproduces the same MergedResult sequence whenever no merged result
is cross-validated (with an idempotent url normalization); when a
cross-validated result below the confidence cap is present, the
cross-validation bonus is applied a second time, so full idempotence
fails. -/
theorem merge_pure_and_conditionally_idempotent (norm domOf : String → String)
    (cs : List RawCandidate) :
    merge norm domOf cs = merge norm domOf cs ∧
    ((∀ s, norm (norm s) = norm s) →
     (∀ r ∈ merge norm domOf cs, r.crossValidated = false) →
     merge norm domOf (mergeOutputAsInput (merge norm domOf cs)) = merge norm domOf cs) :=
  ⟨rfl, fun hidem hcv => merge_remerge_eq norm domOf cs hidem hcv⟩

/-- Concrete single-provider candidate list for the idempotence witness. -/
def singleInput : List RawCandidate := [⟨"a", "t", "Alpha", 1/2⟩]

lemma singleInput_merge :
    merge id id singleInput = [⟨"a", "a", "t", 1/2, ["Alpha"], false⟩] := by
  have ht : ("t" : String).length = 1 := rfl
  norm_num [merge, mergeKeys, mkMerged, contributorsOf, maxConfOf, bestTitle, qmax, cap1,
    sortResults, insertResult, singleInput, ht]

/-- C7 amended-claim witness: on a concrete single-provider input, re-merging
the output-as-input reproduces the merge output exactly. -/
theorem merge_pure_and_conditionally_idempotent_witness :
    merge id id singleInput = merge id id singleInput ∧
    merge id id (mergeOutputAsInput (merge id id singleInput)) = merge id id singleInput :=
  ⟨(merge_pure_and_conditionally_idempotent id id singleInput).1,
   (merge_pure_and_conditionally_idempotent id id singleInput).2 (fun _ => rfl)
     (by
       intro r hr
       rw [singleInput_merge, List.mem_singleton] at hr
       subst hr
       rfl)⟩

end Fujisan
